import Mathlib

/-!
# Verification of the CPACR_EL1 register module

Shallow embedding of `src/regs/cpacr_el1.rs`: the `CPACR_EL1` register of the
cortex-a crate, an instance of the generic bitfield engine of the `register`
crate.  The field data (bit offsets, bit widths, named variants) is transcribed
from the source file.  The engine itself (field descriptors, encode/decode,
and the read-modify-write accessor) is not part of this repository's sources —
the source only instantiates it via `register_bitfields!` and
`RegisterReadWrite` — so it is modelled from the specification (§3, §4, §7).

Register words are `u64`; they are embedded as `Nat`, with bit operations on
`Nat` and the 64-bit complement written out explicitly where the machine code
uses `!mask`.
-/

namespace CortexA

/-- Modelled from the spec: the error taxonomy of §7, for the `register` crate
engine missing from `src/` — `OutOfRange` for a raw value that does not fit in
the field's bit width, `UnknownVariant` for a symbolic name that is not among
the field's declared legal values. -/
inductive RegError where
  | OutOfRange
  | UnknownVariant
deriving DecidableEq

/-- Modelled from the spec: a Field Descriptor (§3), for the `register` crate
engine missing from `src/` — the bit offset of the field's least-significant
bit, its bit width, and the optional closed set of named legal values
(`[]` when absent). -/
structure Field where
  offset : Nat
  width : Nat
  variants : List (String × Nat)
deriving DecidableEq

/-- Modelled from the spec: `mask() = ((1 << width) - 1) << offset` (§4.1). -/
def Field.mask (f : Field) : Nat := ((1 <<< f.width) - 1) <<< f.offset

/-- Modelled from the spec: `encode` fails with `OutOfRange` when
`value >= 2^width`, otherwise returns `(value << offset) & mask()` (§4.1). -/
def Field.encode (f : Field) (v : Nat) : Except RegError Nat :=
  if 2 ^ f.width ≤ v then .error .OutOfRange
  else .ok ((v <<< f.offset) &&& f.mask)

/-- Modelled from the spec: `encode_named` fails with `UnknownVariant` when the
name is not a key of `legal_values`, otherwise encodes its bit pattern (§4.1). -/
def Field.encode_named (f : Field) (name : String) : Except RegError Nat :=
  match f.variants.lookup name with
  | some v => f.encode v
  | none => .error .UnknownVariant

/-- Modelled from the spec: `decode(word) = (word & mask()) >> offset`, a total
function (§4.1). -/
def Field.decode (f : Field) (word : Nat) : Nat := (word &&& f.mask) >>> f.offset

/-- Modelled from the spec: `decode_named` returns the symbolic name whose value
equals `decode(word)`, or nothing when the decoded bits match no variant (§4.1). -/
def Field.decode_named (f : Field) (word : Nat) : Option String :=
  (f.variants.find? (fun p => p.2 == f.decode word)).map Prod.fst

/-- `CPACR_EL1::TTA` from the source: `OFFSET(28) NUMBITS(1)` with variants
`Enable = 0b0`, `Disable = 0b1`. -/
def CPACR_EL1.TTA : Field := ⟨28, 1, [("Enable", 0), ("Disable", 1)]⟩

/-- `CPACR_EL1::FPEN` from the source: `OFFSET(20) NUMBITS(2)` with variants
`Disable = 0b00`, `EnableAtEL1 = 0b01`, `Disable2 = 0b10`, `Enable = 0b11`. -/
def CPACR_EL1.FPEN : Field :=
  ⟨20, 2, [("Disable", 0), ("EnableAtEL1", 1), ("Disable2", 2), ("Enable", 3)]⟩

/-- `CPACR_EL1::ZEN` from the source: `OFFSET(16) NUMBITS(2)` with variants
`Disable = 0b00`, `EnableAtEL1 = 0b01`, `Disable2 = 0b10`, `Enable = 0b11`. -/
def CPACR_EL1.ZEN : Field :=
  ⟨16, 2, [("Disable", 0), ("EnableAtEL1", 1), ("Disable2", 2), ("Enable", 3)]⟩

/-- The three field descriptors declared for `CPACR_EL1` in the source. -/
def CPACR_EL1.fields : List Field := [CPACR_EL1.TTA, CPACR_EL1.FPEN, CPACR_EL1.ZEN]

/-- Complement on a 64-bit register word, the `!mask` of the Rust code. -/
def not64 (m : Nat) : Nat := (2 ^ 64 - 1) ^^^ m

/-- Modelled from the spec: one element of the update sequence passed to
`modify` (§4.2) — a Field Descriptor paired with a raw numeric value or with a
symbolic variant name. -/
inductive FieldUpdate where
  | raw (f : Field) (v : Nat)
  | named (f : Field) (name : String)
deriving DecidableEq

/-- The Field Descriptor an update targets. -/
def FieldUpdate.field : FieldUpdate → Field
  | .raw f _ => f
  | .named f _ => f

/-- Modelled from the spec: the encoded bits of one update — `encode` for a raw
value, `encode_named` for a symbolic name (§4.2). -/
def encodeUpdate : FieldUpdate → Except RegError Nat
  | .raw f v => f.encode v
  | .named f n => f.encode_named n

/-- Modelled from the spec: the merge loop of `modify` (§4.2) — for each update
in order, clear the bits under the field's mask (`old &= !mask`) and OR in the
newly encoded value; an encoding failure aborts the whole merge. -/
def applyUpdates : List FieldUpdate → Nat → Except RegError Nat
  | [], old => .ok old
  | u :: us, old =>
    match encodeUpdate u with
    | .error e => .error e
    | .ok enc => applyUpdates us ((old &&& not64 u.field.mask) ||| enc)

/-- The hardware register as seen through the raw primitives: the current word
held by the hardware and the number of raw writes issued so far (so that the
"exactly one write / no write" guarantees of §4.2 are statable). -/
structure RegState where
  word : Nat
  writes : Nat
deriving DecidableEq

/-- Modelled from the spec: `read()` issues one raw read of the full current
register word (§4.2). -/
def Reg.read (s : RegState) : Nat := s.word

/-- Modelled from the spec: `read_field(f) = f.decode(read())` (§4.2). -/
def Reg.read_field (f : Field) (s : RegState) : Nat := f.decode (Reg.read s)

/-- Modelled from the spec: `modify` (§4.2) — one raw read, merge of all
updates in argument order, then exactly one raw write of the merged word; on an
encoding failure the error is surfaced and no write is issued. -/
def Reg.modify (us : List FieldUpdate) (s : RegState) : RegState × Option RegError :=
  match applyUpdates us (Reg.read s) with
  | .error e => (s, some e)
  | .ok w => ({ word := w, writes := s.writes + 1 }, none)

/-! ## Bitwise helper lemmas -/

theorem and_or_and_or (x c v m e : Nat) :
    (((x &&& c) ||| v) &&& m) ||| e = (x &&& (c &&& m)) ||| ((v &&& m) ||| e) := by
  apply Nat.eq_of_testBit_eq
  intro i
  simp only [Nat.testBit_and, Nat.testBit_or]
  cases x.testBit i <;> cases c.testBit i <;> cases v.testBit i <;> cases m.testBit i <;>
    cases e.testBit i <;> rfl

theorem and_or_idem (w c v : Nat) :
    (((w &&& c) ||| v) &&& c) ||| v = (w &&& c) ||| v := by
  apply Nat.eq_of_testBit_eq
  intro i
  simp only [Nat.testBit_and, Nat.testBit_or]
  cases w.testBit i <;> cases c.testBit i <;> cases v.testBit i <;> rfl

theorem or_and_distrib (a b m : Nat) :
    (a ||| b) &&& m = (a &&& m) ||| (b &&& m) := by
  apply Nat.eq_of_testBit_eq
  intro i
  simp only [Nat.testBit_and, Nat.testBit_or]
  cases a.testBit i <;> cases b.testBit i <;> cases m.testBit i <;> rfl

/-- A value lying under a mask below `2^64` has empty intersection with the
64-bit complement of that mask. -/
theorem masked_and_not64 {enc m : Nat} (hm : enc &&& m = enc) (hlt : m < 2 ^ 64) :
    enc &&& not64 m = 0 := by
  apply Nat.eq_of_testBit_eq
  intro i
  rw [Nat.testBit_and, Nat.zero_testBit, not64, Nat.testBit_xor,
    Nat.testBit_two_pow_sub_one]
  have henc : enc.testBit i = (enc.testBit i && m.testBit i) := by
    conv_lhs => rw [← hm]
    rw [Nat.testBit_and]
  by_cases h64 : i < 64
  · rw [decide_eq_true h64, henc]
    cases enc.testBit i <;> cases m.testBit i <;> rfl
  · have hmF : m.testBit i = false :=
      Nat.testBit_eq_false_of_lt
        (lt_of_lt_of_le hlt (Nat.pow_le_pow_right (by norm_num) (Nat.le_of_not_lt h64)))
    rw [decide_eq_false h64, hmF]
    cases enc.testBit i <;> rfl

/-- Bits outside a field's mask are untouched by one merge step, for words that
fit in the 64-bit register. -/
theorem step_outside_bit {m enc : Nat} (hm : enc &&& m = enc) (w : Nat)
    (hw : w < 2 ^ 64) (i : Nat) (hi : m.testBit i = false) :
    ((w &&& not64 m) ||| enc).testBit i = w.testBit i := by
  have henc : enc.testBit i = false := by
    rw [← hm, Nat.testBit_and, hi, Bool.and_false]
  rw [Nat.testBit_or, Nat.testBit_and, not64, Nat.testBit_xor,
    Nat.testBit_two_pow_sub_one, hi, henc]
  by_cases h64 : i < 64
  · rw [decide_eq_true h64]
    cases w.testBit i <;> rfl
  · have hwF : w.testBit i = false :=
      Nat.testBit_eq_false_of_lt
        (lt_of_lt_of_le hw (Nat.pow_le_pow_right (by norm_num) (Nat.le_of_not_lt h64)))
    rw [decide_eq_false h64, hwF]
    rfl

/-- Shifting a value that fits in `width` bits to `offset` lands entirely under
the field mask. -/
theorem shiftLeft_and_mask {v width : Nat} (off : Nat) (hv : v < 2 ^ width) :
    (v <<< off) &&& (((1 <<< width) - 1) <<< off) = v <<< off := by
  apply Nat.eq_of_testBit_eq
  intro i
  have h1 : ((1 <<< width) - 1 : Nat) = 2 ^ width - 1 := by
    rw [Nat.shiftLeft_eq, Nat.one_mul]
  rw [Nat.testBit_and, Nat.testBit_shiftLeft, Nat.testBit_shiftLeft, h1,
    Nat.testBit_two_pow_sub_one]
  by_cases hoff : i ≥ off
  · by_cases hwd : i - off < width
    · simp [hoff, hwd]
    · have hvF : v.testBit (i - off) = false :=
        Nat.testBit_eq_false_of_lt
          (lt_of_lt_of_le hv (Nat.pow_le_pow_right (by norm_num) (Nat.le_of_not_lt hwd)))
      simp [hvF]
  · simp [hoff]

theorem shiftLeft_shiftRight_cancel (v off : Nat) : (v <<< off) >>> off = v := by
  rw [Nat.shiftLeft_eq, Nat.shiftRight_eq_div_pow]
  exact Nat.mul_div_cancel _ (Nat.two_pow_pos off)

/-- A successfully encoded value lies under the field's mask. -/
theorem Field.encode_ok_and_mask {f : Field} {v enc : Nat}
    (h : f.encode v = .ok enc) : enc &&& f.mask = enc := by
  unfold Field.encode at h
  split at h
  · exact Except.noConfusion h
  · injection h with h
    subst h
    rw [Nat.and_assoc, Nat.and_self]

/-- A successfully encoded update lies under its field's mask. -/
theorem encodeUpdate_ok_and_mask {u : FieldUpdate} {enc : Nat}
    (h : encodeUpdate u = .ok enc) : enc &&& u.field.mask = enc := by
  cases u with
  | raw f v =>
    show enc &&& f.mask = enc
    simp only [encodeUpdate] at h
    exact Field.encode_ok_and_mask h
  | named f n =>
    show enc &&& f.mask = enc
    simp only [encodeUpdate, Field.encode_named] at h
    cases hl : f.variants.lookup n with
    | some v =>
      rw [hl] at h
      exact Field.encode_ok_and_mask h
    | none =>
      rw [hl] at h
      exact Except.noConfusion h

/-- Any decoded field value fits in the field's width. -/
theorem Field.decode_lt (f : Field) (w : Nat) : f.decode w < 2 ^ f.width := by
  unfold Field.decode Field.mask
  rw [Nat.shiftRight_eq_div_pow]
  have h2 : (((1 <<< f.width) - 1) <<< f.offset : Nat) / 2 ^ f.offset
      = (1 <<< f.width) - 1 := by
    rw [Nat.shiftLeft_eq]
    exact Nat.mul_div_cancel _ (Nat.two_pow_pos f.offset)
  calc (w &&& ((1 <<< f.width) - 1) <<< f.offset) / 2 ^ f.offset
      ≤ (((1 <<< f.width) - 1) <<< f.offset) / 2 ^ f.offset :=
        Nat.div_le_div_right Nat.and_le_right
    _ = (1 <<< f.width) - 1 := h2
    _ < 2 ^ f.width := by
        rw [Nat.shiftLeft_eq, Nat.one_mul]
        exact Nat.sub_lt (Nat.two_pow_pos f.width) (by norm_num)

/-- The merge loop acts affinely on the starting word: over any update list it
either fails independently of the word, or maps `(x &&& c) ||| v` to
`(x &&& d) ||| w` for constants `d`, `w` independent of `x`. -/
theorem applyUpdates_shape (us : List FieldUpdate) (c v : Nat) :
    (∃ e, ∀ x : Nat, applyUpdates us ((x &&& c) ||| v) = .error e) ∨
    (∃ d w, ∀ x : Nat, applyUpdates us ((x &&& c) ||| v) = .ok ((x &&& d) ||| w)) := by
  induction us generalizing c v with
  | nil => exact Or.inr ⟨c, v, fun _ => rfl⟩
  | cons u vs ih =>
    cases hu : encodeUpdate u with
    | error e =>
      exact Or.inl ⟨e, fun x => by simp [applyUpdates, hu]⟩
    | ok enc =>
      have key : ∀ x : Nat,
          applyUpdates (u :: vs) ((x &&& c) ||| v) =
            applyUpdates vs ((x &&& (c &&& not64 u.field.mask)) |||
              ((v &&& not64 u.field.mask) ||| enc)) := by
        intro x
        simp only [applyUpdates, hu]
        rw [and_or_and_or]
      rcases ih (c &&& not64 u.field.mask) ((v &&& not64 u.field.mask) ||| enc) with
        ⟨e, he⟩ | ⟨d, w, hdw⟩
      · exact Or.inl ⟨e, fun x => (key x).trans (he x)⟩
      · exact Or.inr ⟨d, w, fun x => (key x).trans (hdw x)⟩

/-- A successful merge is idempotent: re-merging the same updates into the
resulting word reproduces that word. -/
theorem applyUpdates_idem (us : List FieldUpdate) (w r : Nat)
    (h : applyUpdates us w = .ok r) : applyUpdates us r = .ok r := by
  cases us with
  | nil =>
    simp only [applyUpdates] at h
    injection h with h
    subst h
    rfl
  | cons u vs =>
    cases hu : encodeUpdate u with
    | error e => simp [applyUpdates, hu] at h
    | ok enc =>
      rw [show ∀ x, applyUpdates (u :: vs) x
          = applyUpdates vs ((x &&& not64 u.field.mask) ||| enc) from
        fun x => by simp [applyUpdates, hu]] at h ⊢
      rcases applyUpdates_shape vs (not64 u.field.mask) enc with ⟨e, he⟩ | ⟨d, wv, hdw⟩
      · rw [he w] at h
        exact Except.noConfusion h
      · rw [hdw w] at h
        injection h with h
        rw [hdw r, ← h, and_or_idem]

/-- If some update in the list fails to encode, the whole merge fails. -/
theorem applyUpdates_error_of_mem (us : List FieldUpdate) :
    ∀ u e, u ∈ us → encodeUpdate u = .error e →
      ∀ w, ∃ e2, applyUpdates us w = .error e2 := by
  induction us with
  | nil =>
    intro u e hmem
    exact absurd hmem (List.not_mem_nil u)
  | cons v vs ih =>
    intro u e hmem he w
    cases hv : encodeUpdate v with
    | error e2 => exact ⟨e2, by simp [applyUpdates, hv]⟩
    | ok enc =>
      rcases List.mem_cons.mp hmem with rfl | hmem2
      · rw [hv] at he
        exact Except.noConfusion he
      · simpa [applyUpdates, hv] using ih u e hmem2 he ((w &&& not64 v.field.mask) ||| enc)

/-- If every update in the list encodes successfully, the whole merge
succeeds. -/
theorem applyUpdates_ok_of_all (us : List FieldUpdate) :
    (∀ u, u ∈ us → ∃ enc, encodeUpdate u = .ok enc) →
      ∀ w, ∃ r, applyUpdates us w = .ok r := by
  induction us with
  | nil => exact fun _ w => ⟨w, rfl⟩
  | cons v vs ih =>
    intro h w
    obtain ⟨enc, henc⟩ := h v (List.mem_cons_self v vs)
    obtain ⟨r, hr⟩ :=
      ih (fun u hu => h u (List.mem_cons_of_mem v hu)) ((w &&& not64 v.field.mask) ||| enc)
    exact ⟨r, by simp [applyUpdates, henc, hr]⟩

/-- A key found by `lookup` is a member of the association list. -/
theorem lookup_mem {l : List (String × Nat)} {a : String} {v : Nat}
    (h : l.lookup a = some v) : (a, v) ∈ l := by
  induction l with
  | nil => exact Option.noConfusion h
  | cons p l ih =>
    obtain ⟨k, b⟩ := p
    rw [List.lookup] at h
    cases hak : a == k with
    | true =>
      rw [hak] at h
      injection h with h
      subst h
      rw [eq_of_beq hak]
      exact List.mem_cons_self _ _
    | false =>
      rw [hak] at h
      exact List.mem_cons_of_mem (k, b) (ih h)

/-- Distinct CPACR_EL1 fields carry disjoint masks. -/
theorem cpacr_masks_disjoint {a b : Field} (ha : a ∈ CPACR_EL1.fields)
    (hb : b ∈ CPACR_EL1.fields) (hab : a ≠ b) : a.mask &&& b.mask = 0 := by
  simp only [CPACR_EL1.fields, List.mem_cons, List.not_mem_nil, or_false] at ha hb
  rcases ha with rfl | rfl | rfl <;> rcases hb with rfl | rfl | rfl <;>
    first
      | exact absurd rfl hab
      | decide

/-- Every CPACR_EL1 field mask fits in the 64-bit register word. -/
theorem cpacr_mask_lt {a : Field} (ha : a ∈ CPACR_EL1.fields) : a.mask < 2 ^ 64 := by
  simp only [CPACR_EL1.fields, List.mem_cons, List.not_mem_nil, or_false] at ha
  rcases ha with rfl | rfl | rfl <;> decide

/-- Every declared variant value of a CPACR_EL1 field fits in the field's
width. -/
theorem cpacr_variant_lt {f : Field} (hf : f ∈ CPACR_EL1.fields) {a : String}
    {v : Nat} (h : f.variants.lookup a = some v) : v < 2 ^ f.width := by
  have hm := lookup_mem h
  simp only [CPACR_EL1.fields, List.mem_cons, List.not_mem_nil, or_false] at hf
  rcases hf with rfl | rfl | rfl
  · simp only [CPACR_EL1.TTA, List.mem_cons, List.not_mem_nil, or_false,
      Prod.mk.injEq] at hm
    rcases hm with ⟨-, rfl⟩ | ⟨-, rfl⟩ <;> decide
  · simp only [CPACR_EL1.FPEN, List.mem_cons, List.not_mem_nil, or_false,
      Prod.mk.injEq] at hm
    rcases hm with ⟨-, rfl⟩ | ⟨-, rfl⟩ | ⟨-, rfl⟩ | ⟨-, rfl⟩ <;> decide
  · simp only [CPACR_EL1.ZEN, List.mem_cons, List.not_mem_nil, or_false,
      Prod.mk.injEq] at hm
    rcases hm with ⟨-, rfl⟩ | ⟨-, rfl⟩ | ⟨-, rfl⟩ | ⟨-, rfl⟩ <;> decide

/-- `encode_named` on a declared variant of a CPACR_EL1 field succeeds, placing
the variant's bit pattern under the field mask. -/
theorem encode_named_ok {f : Field} (hf : f ∈ CPACR_EL1.fields) {a : String}
    {v : Nat} (h : f.variants.lookup a = some v) :
    f.encode_named a = .ok ((v <<< f.offset) &&& f.mask) := by
  simp only [Field.encode_named, h, Field.encode]
  rw [if_neg (Nat.not_le.mpr (cpacr_variant_lt hf h))]

/-- Decoding a field out of a word whose field bits were just merged in
recovers the merged value. -/
theorem decode_merge {f : Field} (hmlt : f.mask < 2 ^ 64) {v : Nat}
    (hv : v < 2 ^ f.width) (w : Nat) :
    f.decode ((w &&& not64 f.mask) ||| ((v <<< f.offset) &&& f.mask)) = v := by
  have h1 : ((w &&& not64 f.mask) ||| ((v <<< f.offset) &&& f.mask)) &&& f.mask
      = (v <<< f.offset) &&& f.mask := by
    rw [or_and_distrib, Nat.and_assoc w, Nat.and_comm (not64 f.mask) f.mask,
      masked_and_not64 (Nat.and_self f.mask) hmlt, Nat.and_zero, Nat.zero_or,
      Nat.and_assoc, Nat.and_self]
  simp only [Field.decode]
  rw [h1]
  simp only [Field.mask]
  rw [shiftLeft_and_mask f.offset hv, shiftLeft_shiftRight_cancel]

/-! ## Claims -/

/-- Claim C1: for FPEN (offset 20, width 2, `Enable = 0b11`), `modify` with the
single update `(FPEN, "Enable")` on register word `0x0` yields `0x300000` (with
exactly one write); `read_field(FPEN)` on that word returns `0b11`, and
`decode_named` on it returns `"Enable"`. -/
theorem fpen_enable_scenario :
    Reg.modify [FieldUpdate.named CPACR_EL1.FPEN "Enable"] ⟨0, 0⟩ =
      (⟨0x300000, 1⟩, none) ∧
    Reg.read_field CPACR_EL1.FPEN ⟨0x300000, 1⟩ = 0b11 ∧
    CPACR_EL1.FPEN.decode_named 0x300000 = some "Enable" := by
  refine ⟨by decide, by decide, by decide⟩

/-- Claim C2: for TTA (offset 28, width 1, `Enable = 0b0`), `modify` with the
single update `(TTA, "Enable")` on register word `0xFFFF_FFFF` yields a word
with bit 28 cleared and every other bit of the starting word unchanged. -/
theorem tta_enable_scenario :
    Reg.modify [FieldUpdate.named CPACR_EL1.TTA "Enable"] ⟨0xFFFFFFFF, 0⟩ =
      (⟨0xEFFFFFFF, 1⟩, none) ∧
    Nat.testBit 0xEFFFFFFF 28 = false ∧
    ∀ i : Nat, i ≠ 28 → Nat.testBit 0xEFFFFFFF i = Nat.testBit 0xFFFFFFFF i := by
  refine ⟨by decide, by decide, ?_⟩
  intro i hi
  have h1 : (0xEFFFFFFF : Nat) = (2 ^ 32 - 1) ^^^ 2 ^ 28 := by decide
  have h2 : (0xFFFFFFFF : Nat) = 2 ^ 32 - 1 := by decide
  rw [h1, h2, Nat.testBit_xor, Nat.testBit_two_pow,
    decide_eq_false (fun hc : 28 = i => hi hc.symm), Bool.xor_false]

theorem tta_enable_scenario_witness :
    Nat.testBit 0xEFFFFFFF 0 = Nat.testBit 0xFFFFFFFF 0 :=
  tta_enable_scenario.2.2 0 (by decide)

/-- Claim C3: for every CPACR_EL1 field descriptor and every value below
`2^width`, encoding succeeds and decoding the encoded word gives the value
back. -/
theorem encode_decode_roundtrip (f : Field) (hf : f ∈ CPACR_EL1.fields)
    (v : Nat) (hv : v < 2 ^ f.width) :
    ∃ enc, f.encode v = .ok enc ∧ f.decode enc = v := by
  refine ⟨(v <<< f.offset) &&& f.mask, ?_, ?_⟩
  · simp only [Field.encode]
    rw [if_neg (Nat.not_le.mpr hv)]
  · simp only [Field.decode]
    rw [Nat.and_assoc, Nat.and_self]
    simp only [Field.mask]
    rw [shiftLeft_and_mask f.offset hv, shiftLeft_shiftRight_cancel]

theorem encode_decode_roundtrip_witness :
    ∃ enc, CPACR_EL1.FPEN.encode 2 = .ok enc ∧ CPACR_EL1.FPEN.decode enc = 2 :=
  encode_decode_roundtrip CPACR_EL1.FPEN (by decide) 2 (by decide)

/-- Claim C4: a `modify` that updates only field A of CPACR_EL1 leaves every
other field B decoding to the same value as before, and preserves every bit
outside A's mask exactly as read. -/
theorem modify_isolates (a b : Field) (ha : a ∈ CPACR_EL1.fields)
    (hb : b ∈ CPACR_EL1.fields) (hab : a ≠ b) (u : FieldUpdate)
    (hu : u.field = a) (s : RegState) (hw : s.word < 2 ^ 64)
    (hok : (Reg.modify [u] s).2 = none) :
    b.decode (Reg.modify [u] s).1.word = b.decode s.word ∧
    ∀ i, a.mask.testBit i = false →
      ((Reg.modify [u] s).1.word).testBit i = s.word.testBit i := by
  cases happ : applyUpdates [u] s.word with
  | error e =>
    simp only [Reg.modify, Reg.read, happ] at hok
    exact Option.noConfusion hok
  | ok r =>
    have hword : (Reg.modify [u] s).1.word = r := by
      simp only [Reg.modify, Reg.read, happ]
    rw [hword]
    cases hu2 : encodeUpdate u with
    | error e => simp [applyUpdates, hu2] at happ
    | ok enc =>
      have hr : r = (s.word &&& not64 a.mask) ||| enc := by
        simp only [applyUpdates, hu2, hu] at happ
        injection happ with happ
        exact happ.symm
      have hmask : enc &&& a.mask = enc := by
        have h3 := encodeUpdate_ok_and_mask hu2
        rwa [hu] at h3
      have houtside : ∀ i, a.mask.testBit i = false → r.testBit i = s.word.testBit i := by
        intro i hi
        rw [hr]
        exact step_outside_bit hmask s.word hw i hi
      refine ⟨?_, houtside⟩
      have hand : r &&& b.mask = s.word &&& b.mask := by
        apply Nat.eq_of_testBit_eq
        intro i
        rw [Nat.testBit_and, Nat.testBit_and]
        cases hbi : b.mask.testBit i with
        | false => rw [Bool.and_false, Bool.and_false]
        | true =>
          have hai : a.mask.testBit i = false := by
            have hd := cpacr_masks_disjoint ha hb hab
            have h0 : (a.mask &&& b.mask).testBit i = false := by
              rw [hd, Nat.zero_testBit]
            rw [Nat.testBit_and, hbi, Bool.and_true] at h0
            exact h0
          rw [houtside i hai]
      simp only [Field.decode]
      rw [hand]

theorem modify_isolates_witness :
    CPACR_EL1.ZEN.decode
        (Reg.modify [FieldUpdate.raw CPACR_EL1.FPEN 3] ⟨0x12345, 0⟩).1.word =
      CPACR_EL1.ZEN.decode 0x12345 :=
  (modify_isolates CPACR_EL1.FPEN CPACR_EL1.ZEN (by decide) (by decide)
    (by decide) (FieldUpdate.raw CPACR_EL1.FPEN 3) rfl ⟨0x12345, 0⟩
    (by decide) (by decide)).1

/-- Claim C5: calling `modify` twice in succession with the same updates (the
second call reading the word produced by the first) yields the same final
register word as calling it once. -/
theorem modify_twice_eq_once (us : List FieldUpdate) (s : RegState) :
    ((Reg.modify us (Reg.modify us s).1).1).word = ((Reg.modify us s).1).word := by
  cases h : applyUpdates us s.word with
  | error e =>
    simp [Reg.modify, Reg.read, h]
  | ok r =>
    have h2 : applyUpdates us r = .ok r := applyUpdates_idem us s.word r h
    simp [Reg.modify, Reg.read, h, h2]

/-- Claim C6: the three CPACR_EL1 field descriptors (TTA at offset 28 width 1,
FPEN at offset 20 width 2, ZEN at offset 16 width 2) have pairwise disjoint
masks. -/
theorem cpacr_masks_pairwise_disjoint :
    CPACR_EL1.TTA.offset = 28 ∧ CPACR_EL1.TTA.width = 1 ∧
    CPACR_EL1.FPEN.offset = 20 ∧ CPACR_EL1.FPEN.width = 2 ∧
    CPACR_EL1.ZEN.offset = 16 ∧ CPACR_EL1.ZEN.width = 2 ∧
    CPACR_EL1.TTA.mask &&& CPACR_EL1.FPEN.mask = 0 ∧
    CPACR_EL1.TTA.mask &&& CPACR_EL1.ZEN.mask = 0 ∧
    CPACR_EL1.FPEN.mask &&& CPACR_EL1.ZEN.mask = 0 := by
  decide

/-- Claim C7: for every CPACR_EL1 field and every value `v ≥ 2^width`,
`encode v` fails with `OutOfRange` — out-of-range bits are never silently
truncated. -/
theorem encode_rejects_out_of_range (f : Field) (hf : f ∈ CPACR_EL1.fields)
    (v : Nat) (hv : 2 ^ f.width ≤ v) : f.encode v = .error .OutOfRange := by
  simp only [Field.encode]
  rw [if_pos hv]

theorem encode_rejects_out_of_range_witness :
    CPACR_EL1.FPEN.encode 4 = .error .OutOfRange :=
  encode_rejects_out_of_range CPACR_EL1.FPEN (by decide) 4 (by decide)

/-- Claim C8: if any update passed to `modify` fails to encode, the failure is
surfaced and the register state is left unchanged (no write); if all updates
encode, they are all merged and exactly one write occurs. -/
theorem modify_all_or_nothing (us : List FieldUpdate) (s : RegState) :
    ((∃ u, u ∈ us ∧ ∃ e, encodeUpdate u = .error e) →
      (Reg.modify us s).1 = s ∧ (Reg.modify us s).2 ≠ none) ∧
    ((∀ u, u ∈ us → ∃ enc, encodeUpdate u = .ok enc) →
      (Reg.modify us s).2 = none ∧ (Reg.modify us s).1.writes = s.writes + 1 ∧
        applyUpdates us s.word = .ok ((Reg.modify us s).1.word)) := by
  constructor
  · rintro ⟨u, hmem, e, he⟩
    obtain ⟨e2, he2⟩ := applyUpdates_error_of_mem us u e hmem he s.word
    simp [Reg.modify, Reg.read, he2]
  · intro h
    obtain ⟨r, hr⟩ := applyUpdates_ok_of_all us h s.word
    simp [Reg.modify, Reg.read, hr]

theorem modify_all_or_nothing_witness :
    (Reg.modify [FieldUpdate.raw CPACR_EL1.FPEN 4] ⟨5, 0⟩).1 = ⟨5, 0⟩ ∧
    (Reg.modify [FieldUpdate.raw CPACR_EL1.FPEN 4] ⟨5, 0⟩).2 ≠ none :=
  (modify_all_or_nothing [FieldUpdate.raw CPACR_EL1.FPEN 4] ⟨5, 0⟩).1
    ⟨FieldUpdate.raw CPACR_EL1.FPEN 4, List.mem_cons_self _ _,
      RegError.OutOfRange, rfl⟩

/-- Claim C9: updating the same CPACR_EL1 field twice in one `modify` call is
the same as performing only the later update — last write wins — the call
succeeds, and the field decodes to the later variant's value. -/
theorem modify_last_write_wins (f : Field) (hf : f ∈ CPACR_EL1.fields)
    (a b : String) (va vb : Nat) (ha : f.variants.lookup a = some va)
    (hb : f.variants.lookup b = some vb) (s : RegState) :
    Reg.modify [FieldUpdate.named f a, FieldUpdate.named f b] s =
      Reg.modify [FieldUpdate.named f b] s ∧
    (Reg.modify [FieldUpdate.named f b] s).2 = none ∧
    f.decode ((Reg.modify [FieldUpdate.named f b] s).1.word) = vb := by
  have hvb := cpacr_variant_lt hf hb
  have hea := encode_named_ok hf ha
  have heb := encode_named_ok hf hb
  have hma : ((va <<< f.offset) &&& f.mask) &&& f.mask = (va <<< f.offset) &&& f.mask := by
    rw [Nat.and_assoc, Nat.and_self]
  have hmlt : f.mask < 2 ^ 64 := cpacr_mask_lt hf
  have happ : ∀ w, applyUpdates [FieldUpdate.named f a, FieldUpdate.named f b] w
      = applyUpdates [FieldUpdate.named f b] w := by
    intro w
    simp only [applyUpdates, encodeUpdate, hea, heb, FieldUpdate.field]
    rw [and_or_and_or, Nat.and_self, masked_and_not64 hma hmlt, Nat.zero_or]
  have hres : applyUpdates [FieldUpdate.named f b] s.word
      = .ok ((s.word &&& not64 f.mask) ||| ((vb <<< f.offset) &&& f.mask)) := by
    simp only [applyUpdates, encodeUpdate, heb, FieldUpdate.field]
  refine ⟨?_, ?_, ?_⟩
  · simp only [Reg.modify, Reg.read, happ s.word]
  · simp only [Reg.modify, Reg.read, hres]
  · simp only [Reg.modify, Reg.read, hres]
    exact decode_merge hmlt hvb s.word

theorem modify_last_write_wins_witness :
    Reg.modify [FieldUpdate.named CPACR_EL1.FPEN "Disable",
        FieldUpdate.named CPACR_EL1.FPEN "Enable"] ⟨0, 0⟩ =
      Reg.modify [FieldUpdate.named CPACR_EL1.FPEN "Enable"] ⟨0, 0⟩ :=
  (modify_last_write_wins CPACR_EL1.FPEN (by decide) "Disable" "Enable" 0 3
    (by decide) (by decide) ⟨0, 0⟩).1

/-- Claim C10: TTA names both of its 1-bit patterns and FPEN and ZEN name all
four 2-bit patterns with pairwise-distinct values, so `decode_named` on any
CPACR_EL1 field returns some variant name for every register word. -/
theorem decode_named_total :
    (CPACR_EL1.TTA.variants.map Prod.snd = [0, 1] ∧
     CPACR_EL1.FPEN.variants.map Prod.snd = [0, 1, 2, 3] ∧
     CPACR_EL1.ZEN.variants.map Prod.snd = [0, 1, 2, 3]) ∧
    ∀ f, f ∈ CPACR_EL1.fields → ∀ w, (f.decode_named w).isSome = true := by
  refine ⟨by decide, ?_⟩
  intro f hf w
  have hd := Field.decode_lt f w
  simp only [CPACR_EL1.fields, List.mem_cons, List.not_mem_nil, or_false] at hf
  rcases hf with rfl | rfl | rfl
  · have h2 : CPACR_EL1.TTA.decode w < 2 := hd
    have h3 : CPACR_EL1.TTA.decode w = 0 ∨ CPACR_EL1.TTA.decode w = 1 := by omega
    rcases h3 with h | h <;> simp only [Field.decode_named, h] <;> decide
  · have h2 : CPACR_EL1.FPEN.decode w < 4 := hd
    have h3 : CPACR_EL1.FPEN.decode w = 0 ∨ CPACR_EL1.FPEN.decode w = 1 ∨
        CPACR_EL1.FPEN.decode w = 2 ∨ CPACR_EL1.FPEN.decode w = 3 := by omega
    rcases h3 with h | h | h | h <;> simp only [Field.decode_named, h] <;> decide
  · have h2 : CPACR_EL1.ZEN.decode w < 4 := hd
    have h3 : CPACR_EL1.ZEN.decode w = 0 ∨ CPACR_EL1.ZEN.decode w = 1 ∨
        CPACR_EL1.ZEN.decode w = 2 ∨ CPACR_EL1.ZEN.decode w = 3 := by omega
    rcases h3 with h | h | h | h <;> simp only [Field.decode_named, h] <;> decide

theorem decode_named_total_witness :
    (CPACR_EL1.FPEN.decode_named 12345).isSome = true :=
  decode_named_total.2 CPACR_EL1.FPEN (by decide) 12345

end CortexA
